import Mathlib

/-!
Verification of the `@aws-cdk` import-path rewriter.

The repository's core is `rewriteImports` (two versions appear in the source:
an earlier one without the `constructs` insertion logic and a later one with
it) together with the pure rule table `updatedLocationOf`.

Shallow embedding conventions:
* JS strings are modelled as `List Char` (`String.data` of Lean literals);
  `String.prototype.substring(a, b)` is `(·.take b).drop a`, `substring(a)`
  is `·.drop a`, `startsWith` is `List.IsPrefix`, `substring(9)` is `·.drop 9`.
* The TypeScript syntax tree (produced by the external `ts.createSourceFile`)
  is modelled by the inductive `Node`; each top-level statement is a `TopStmt`
  carrying its `pos`/`end` offsets (trivia-inclusive, as in the TS API), and
  a string-literal node carries `getStart`/`getEnd` offsets (`StrLit`).
* `Array.prototype.sort` (stable in ES2019+) with the comparator
  `(l, r) => r.getStart() - l.getStart()` is modelled by a stable insertion
  sort with the relation `replBefore` (descending start offsets).
* The single-quote character (codepoint 39) is written `Char.ofNat 39`.
-/

/-- The character `'` (single quote, codepoint 39). -/
def squote : Char := Char.ofNat 39

/-- `'@aws-cdk/'`, the deprecated ("hyper-modular") path scope. -/
def awsCdkPrefixChars : List Char := "@aws-cdk/".data

/-- From the source: `const EXEMPTIONS = new Set(['@aws-cdk/cloudformation-diff'])`. -/
def EXEMPTIONS : List (List Char) := ["@aws-cdk/cloudformation-diff".data]

/-- From the source (`function updatedLocationOf(modulePath: string)`):
the rule table mapping a legacy module path to its replacement, `none`
meaning "no rewrite". -/
def updatedLocationOf (modulePath : List Char) : Option (List Char) :=
  if ¬ awsCdkPrefixChars <+: modulePath ∨ modulePath ∈ EXEMPTIONS then none
  else if modulePath = "@aws-cdk/core".data then some "aws-cdk-lib".data
  else if modulePath = "@aws-cdk/assert".data then some "@aws-cdk/assert".data
  else if modulePath = "@aws-cdk/assert/jest".data then some "@aws-cdk/assert/jest".data
  else some ("aws-cdk-lib/".data ++ modulePath.drop 9)

/-- The total path rewrite induced by the rule table (`none` means "keep"). -/
def rewritePath (p : List Char) : List Char := (updatedLocationOf p).getD p

/-- A `ts.StringLiteral` node: its text (without the quote delimiters) and
its `getStart()` / `getEnd()` offsets, which delimit the literal *including*
both quote characters. -/
structure StrLit where
  text : List Char
  start : Nat
  endP : Nat
deriving DecidableEq, Repr

/-- A `ts.ImportSpecifier`: `import { propertyName as name }`.  For
`import { Foo as Bar }` TypeScript stores `propertyName = Foo` (the exported
name) and `name = Bar` (the local binding); for `import { Foo }` it stores
`propertyName = none`, `name = Foo`. -/
structure ImportSpecifier where
  propertyName : Option (List Char)
  name : List Char
deriving DecidableEq, Repr

/-- `ts.NamedImportBindings`: either `{ a, b as c }` or `* as ns`. -/
inductive NamedBindings where
  | namedImports (elements : List ImportSpecifier)
  | namespaceImport (name : List Char)
deriving DecidableEq, Repr

/-- A `ts.ImportClause` (default-import name plus optional named bindings). -/
structure ImportClause where
  name : Option (List Char)
  namedBindings : Option NamedBindings
deriving DecidableEq, Repr

/-- The fragment of `ts.Node` inspected by the rewriter.  `other` stands for
every node kind the rewriter does not look into. -/
inductive Node where
  | importDecl (moduleSpecifier : Node) (importClause : Option ImportClause)
  | importEqualsDecl (name : List Char) (moduleReference : Node)
  | externalModuleRef (expression : Node)
  | callExpr (expression : Node) (arguments : List Node)
  | exprStmt (expression : Node)
  | stringLit (lit : StrLit)
  | identifier (escapedText : List Char)
  | binaryExpr (left : Node) (right : Node)
  | other

/-- `ts.isCallExpression`. -/
def Node.isCallExpr : Node → Bool
  | .callExpr _ _ => true
  | _ => false

/-- A top-level statement of the parsed source file, with its
trivia-inclusive `pos` / `end` offsets (used only by `getIndent`). -/
structure TopStmt where
  pos : Nat
  endP : Nat
  node : Node

/-- The `type` tag of the record returned by the second version's
`getModuleSpecifier`: `'named' | 'namespace' | 'none'`. -/
inductive ImportKind where
  | named
  | namespaceBinding
  | noBinding
deriving DecidableEq, Repr

/-- The record `{ module, type, symbols? }` returned by the second version's
`getModuleSpecifier`. -/
structure ModSpec where
  module : StrLit
  type : ImportKind
  symbols : Option (List (List Char))
deriving DecidableEq, Repr

/-- From the source (second version of `rewriteImports`, inner function
`getModuleSpecifier`): recognizes the supported import shapes and extracts
the module string literal, the import kind, and the bound symbol names
(`e.name.text` for named imports — the local binding name — and the alias
for namespace imports). -/
def getModuleSpecifier : Node → Option ModSpec
  | .importDecl (.stringLit lit) importClause =>
    match importClause with
    | none => some ⟨lit, .noBinding, none⟩
    | some c =>
      match c.namedBindings with
      | some (.namedImports els) =>
          some ⟨lit, .named, some (els.map fun e => e.name)⟩
      | some (.namespaceImport nm) => some ⟨lit, .namespaceBinding, some [nm]⟩
      | none => none
  | .importDecl (.binaryExpr _ right) _ =>
    if right.isCallExpr then getModuleSpecifier right else none
  | .importEqualsDecl _ (.externalModuleRef (.stringLit lit)) =>
    some ⟨lit, .noBinding, none⟩
  | .callExpr (.identifier escapedText) arguments =>
    if escapedText = "require".data then
      match arguments with
      | [argument] =>
        match argument with
        | .stringLit lit => some ⟨lit, .noBinding, none⟩
        | _ => none
      | _ => none
    else none
  | .exprStmt expression =>
    if expression.isCallExpr then getModuleSpecifier expression else none
  | _ => none

/-- From the source (inner function `getIndent`): the leading indentation of
a statement, extracted with the regex `^[\n\r]*([\t ]+)` from
`sourceText.substring(node.pos, node.end)` (empty when the regex fails). -/
def getIndent (sourceText : List Char) (pos endP : Nat) : List Char :=
  let text := (sourceText.take endP).drop pos
  ((text.dropWhile fun c => c == '\n' || c == '\r').takeWhile
    fun c => c == '\t' || c == ' ')

/-- The text of the inserted statement, from the source template
`` `${getIndent(node)}import { Construct } from \'constructs\';` ``
(minus the indentation, prepended by the caller). -/
def constructsImportText : List Char :=
  "import { Construct } from ".data ++ [squote] ++ "constructs".data ++ [squote, ';']

/-- `symbols?.includes(name)` (the optional-chaining call: `false` when
`symbols` is absent). -/
def symbolsInclude (symbols : Option (List (List Char))) (nm : List Char) : Bool :=
  match symbols with
  | some syms => syms.contains nm
  | none => false

/-- The visitor's insertion branch, per statement: fires when
`moduleSpecifier.module.text === '@aws-cdk/core' &&
moduleSpecifier.symbols?.includes('Construct')`. -/
def insertionFor (sourceText : List Char) (st : TopStmt) : Option (List Char) :=
  match getModuleSpecifier st.node with
  | some ms =>
    if ms.module.text = "@aws-cdk/core".data ∧
        symbolsInclude ms.symbols "Construct".data = true then
      some (getIndent sourceText st.pos st.endP ++ constructsImportText)
    else none
  | none => none

/-- The contents of `importInsertions` after the visitor pass, in discovery
(statement) order. -/
def insertionsOf (sourceText : List Char) (statements : List TopStmt) : List (List Char) :=
  statements.filterMap (insertionFor sourceText)

/-- An element of the `replacements` array: the module string-literal node
and the replacement path. -/
structure Replacement where
  original : StrLit
  updatedLocation : List Char
deriving DecidableEq, Repr

/-- The visitor's replacement branch, per statement: record the module
literal and its `updatedLocationOf` target when the latter is non-null. -/
def replacementFor (st : TopStmt) : Option Replacement :=
  match getModuleSpecifier st.node with
  | some ms =>
    match updatedLocationOf ms.module.text with
    | some newTarget => some ⟨ms.module, newTarget⟩
    | none => none
  | none => none

/-- The contents of `replacements` after the visitor pass, in discovery
(statement) order. -/
def replacementsOf (statements : List TopStmt) : List Replacement :=
  statements.filterMap replacementFor

/-- The sort comparator `(l, r) => r.getStart() - l.getStart()`: `a` comes
before `b` when `a`'s start offset is the larger one. -/
def replBefore (a b : Replacement) : Prop :=
  b.original.start ≤ a.original.start

instance : DecidableRel replBefore := fun _ _ => Nat.decLe _ _

instance : IsTotal Replacement replBefore :=
  ⟨fun a b => Nat.le_total b.original.start a.original.start⟩

instance : IsTrans Replacement replBefore :=
  ⟨fun _ _ _ h1 h2 => le_trans h2 h1⟩

/-- `replacements.sort(...)` by descending start offset (stable). -/
def sortDesc (l : List Replacement) : List Replacement :=
  List.insertionSort replBefore l

/-- One iteration of the replacement loop:
`prefix = updatedSourceText.substring(0, original.getStart() + 1)`,
`suffix = updatedSourceText.substring(original.getEnd() - 1)`,
result `prefix + updatedLocation + suffix`. -/
def applyReplacement (updatedSourceText : List Char) (r : Replacement) : List Char :=
  updatedSourceText.take (r.original.start + 1) ++ r.updatedLocation ++
    updatedSourceText.drop (r.original.endP - 1)

/-- The whole replacement loop over an already-sorted list. -/
def applyAll (sourceText : List Char) (l : List Replacement) : List Char :=
  l.foldl applyReplacement sourceText

/-- The insertion loop: `updatedSourceText = insertion + '\n' + updatedSourceText`
for each insertion, in list order. -/
def prependAll (importInsertions : List (List Char)) (updatedSourceText : List Char) :
    List Char :=
  importInsertions.foldl (fun acc insertion => insertion ++ '\n' :: acc) updatedSourceText

/-- The second (later) version of `rewriteImports`, the one with the
`constructs` insertion logic, as a function of the source text and the
parsed top-level statements. -/
def rewriteImports (sourceText : List Char) (statements : List TopStmt) : List Char :=
  prependAll (insertionsOf sourceText statements)
    (applyAll sourceText (sortDesc (replacementsOf statements)))

/-- From the source (first version of `rewriteImports`, inner function
`getModuleSpecifier`): same recognition, but an `ImportDeclaration` whose
module specifier is a string literal is accepted regardless of its import
clause, and only the literal is returned. -/
def getModuleSpecifierV1 : Node → Option StrLit
  | .importDecl (.stringLit lit) _ => some lit
  | .importDecl (.binaryExpr _ right) _ =>
    if right.isCallExpr then getModuleSpecifierV1 right else none
  | .importEqualsDecl _ (.externalModuleRef (.stringLit lit)) => some lit
  | .callExpr (.identifier escapedText) arguments =>
    if escapedText = "require".data then
      match arguments with
      | [argument] =>
        match argument with
        | .stringLit lit => some lit
        | _ => none
      | _ => none
    else none
  | .exprStmt expression =>
    if expression.isCallExpr then getModuleSpecifierV1 expression else none
  | _ => none

/-- From the source (first version, `function namedImports`): the named
binding names (`e.name.text`) of an import declaration. -/
def namedImports : Node → List (List Char)
  | .importDecl _ (some c) =>
    match c.namedBindings with
    | some (.namedImports els) => els.map fun e => e.name
    | _ => []
  | _ => []

/-- From the source (first version, `function importNamespaceQualifier`). -/
def importNamespaceQualifier : Node → Option (List Char)
  | .importDecl _ (some c) =>
    match c.namedBindings with
    | some (.namespaceImport nm) => some nm
    | _ => none
  | .importEqualsDecl nm _ => some nm
  | _ => none

/-- The first version's replacement branch, per statement (its `importNode`
field and the `isConstructANamedImport` / `constructQualifier` bookkeeping
are dead for the produced text and are omitted). -/
def replacementV1For (st : TopStmt) : Option Replacement :=
  match getModuleSpecifierV1 st.node with
  | some lit =>
    match updatedLocationOf lit.text with
    | some newTarget => some ⟨lit, newTarget⟩
    | none => none
  | none => none

/-- The `replacements` array of the first version, in discovery order. -/
def replacementsV1Of (statements : List TopStmt) : List Replacement :=
  statements.filterMap replacementV1For

/-- The first (earlier) version of `rewriteImports`: replacements only, no
insertion loop. -/
def rewriteImportsV1 (sourceText : List Char) (statements : List TopStmt) : List Char :=
  applyAll sourceText (sortDesc (replacementsV1Of statements))

/-- A replacement is well formed for a source text when its literal has a
nonempty interior (`start + 2 ≤ endP`, i.e. at least the two quote
characters) and lies inside the text. -/
def ReplWF (t : List Char) (r : Replacement) : Prop :=
  r.original.start + 2 ≤ r.original.endP ∧ r.original.endP ≤ t.length

instance (t : List Char) (r : Replacement) : Decidable (ReplWF t r) :=
  inferInstanceAs (Decidable (_ ∧ _))

/-- Two replacements cover disjoint literal ranges (the planner invariant:
literals of distinct import statements occupy disjoint source regions). -/
def Disj (a b : Replacement) : Prop :=
  a.original.endP ≤ b.original.start ∨ b.original.endP ≤ a.original.start

instance (a b : Replacement) : Decidable (Disj a b) :=
  inferInstanceAs (Decidable (_ ∨ _))

/-- A descending, pairwise-disjoint edit list: each later (smaller-offset)
replacement ends no later than the previous one starts. -/
def DescChain (l : List Replacement) : Prop :=
  l.Chain' fun a b => b.original.endP ≤ a.original.start

instance (l : List Replacement) : Decidable (DescChain l) :=
  inferInstanceAs (Decidable (List.Chain' _ _))

/-- A string-literal node is faithful to the source text: its `getStart` /
`getEnd` range is in bounds, spans exactly `text` plus the two quote
delimiters, and the interior of the range really reads `text`. -/
def LitWF (t : List Char) (l : StrLit) : Prop :=
  l.start + 1 + l.text.length + 1 = l.endP ∧ l.endP ≤ t.length ∧
  (t.drop (l.start + 1)).take l.text.length = l.text

instance (t : List Char) (l : StrLit) : Decidable (LitWF t l) :=
  inferInstanceAs (Decidable (_ ∧ _ ∧ _))

/-- Joining insertion lines (each followed by a newline) in list order in
front of a tail; `prependAll` equals this applied to the reversed list. -/
def joinIns (importInsertions : List (List Char)) (z : List Char) : List Char :=
  importInsertions.foldr (fun insertion acc => insertion ++ '\n' :: acc) z

/-- The shape of a recognized *named* import of `'@aws-cdk/core'` binding a
symbol `Construct` (the precondition of the relocation-insertion claim). -/
def isNamedConstructCore (st : TopStmt) : Bool :=
  match getModuleSpecifier st.node with
  | some ms =>
    (ms.module.text == "@aws-cdk/core".data) && (ms.type == ImportKind.named) &&
      symbolsInclude ms.symbols "Construct".data
  | none => false

/-! ## Concrete example sources (each with its provider-contract tree) -/

/-- `import { Construct } from "@aws-cdk/core";` -/
def exCoreText : List Char := "import { Construct } from \"@aws-cdk/core\";".data

def exCoreLit : StrLit := ⟨"@aws-cdk/core".data, 26, 41⟩

def exCoreClause : ImportClause :=
  ⟨none, some (.namedImports [⟨none, "Construct".data⟩])⟩

def exCoreStmt : TopStmt := ⟨0, 42, .importDecl (.stringLit exCoreLit) (some exCoreClause)⟩

/-- `import * as Construct from "@aws-cdk/core";` -/
def exNsText : List Char := "import * as Construct from \"@aws-cdk/core\";".data

def exNsLit : StrLit := ⟨"@aws-cdk/core".data, 27, 42⟩

def exNsStmt : TopStmt :=
  ⟨0, 43, .importDecl (.stringLit exNsLit)
    (some ⟨none, some (.namespaceImport "Construct".data)⟩)⟩

/-- Two `Construct` imports of `'@aws-cdk/core'`, the second indented by two
spaces (line 2 starts at offset 45; its statement `pos` 42 covers the
leading `"\n  "` trivia). -/
def exTwoText : List Char := exCoreText ++ '\n' :: ' ' :: ' ' :: exCoreText

def exCoreLit2 : StrLit := ⟨"@aws-cdk/core".data, 71, 86⟩

def exCoreStmt2 : TopStmt := ⟨42, 87, .importDecl (.stringLit exCoreLit2) (some exCoreClause)⟩

/-- A named `Construct` import followed by a namespace import aliased
`Construct`, both of `'@aws-cdk/core'` (second line starts at offset 43). -/
def exMixText : List Char := exCoreText ++ '\n' :: exNsText

def exNsLit2 : StrLit := ⟨"@aws-cdk/core".data, 70, 85⟩

def exNsStmt2 : TopStmt :=
  ⟨42, 86, .importDecl (.stringLit exNsLit2)
    (some ⟨none, some (.namespaceImport "Construct".data)⟩)⟩

/-- `import { expect } from "@aws-cdk/assert";` (a passthrough path). -/
def exAssertText : List Char := "import { expect } from \"@aws-cdk/assert\";".data

def exAssertLit : StrLit := ⟨"@aws-cdk/assert".data, 23, 40⟩

def exAssertStmt : TopStmt :=
  ⟨0, 41, .importDecl (.stringLit exAssertLit)
    (some ⟨none, some (.namedImports [⟨none, "expect".data⟩])⟩)⟩

/-- `require();` — a malformed module-loading call (zero arguments). -/
def exReqText : List Char := "require();".data

def exReqStmt : TopStmt := ⟨0, 10, .exprStmt (.callExpr (.identifier "require".data) [])⟩

/-- `import * as s3 from "aws-cdk-lib/aws-s3";` — an already-rewritten source. -/
def exDoneText : List Char := "import * as s3 from \"aws-cdk-lib/aws-s3\";".data

def exDoneLit : StrLit := ⟨"aws-cdk-lib/aws-s3".data, 20, 40⟩

def exDoneStmt : TopStmt :=
  ⟨0, 41, .importDecl (.stringLit exDoneLit)
    (some ⟨none, some (.namespaceImport "s3".data)⟩)⟩

/-- `import foo from "@aws-cdk/aws-s3";` — a default-only import. -/
def exDefText : List Char := "import foo from \"@aws-cdk/aws-s3\";".data

def exDefLit : StrLit := ⟨"@aws-cdk/aws-s3".data, 16, 33⟩

def exDefStmt : TopStmt :=
  ⟨0, 34, .importDecl (.stringLit exDefLit) (some ⟨some "foo".data, none⟩)⟩

/-- `import { Construct as Ctor } from "@aws-cdk/core";` — a local rename of
the relocated symbol. -/
def exRenText : List Char :=
  "import { Construct as Ctor } from \"@aws-cdk/core\";".data

def exRenLit : StrLit := ⟨"@aws-cdk/core".data, 34, 49⟩

def exRenStmt : TopStmt :=
  ⟨0, 50, .importDecl (.stringLit exRenLit)
    (some ⟨none, some (.namedImports [⟨some "Construct".data, "Ctor".data⟩])⟩)⟩

/-! ## Generic lemmas about the text patcher -/

theorem applyReplacement_append {A : List Char} (B : List Char) {r : Replacement}
    (h : ReplWF A r) :
    applyReplacement (A ++ B) r = applyReplacement A r ++ B := by
  obtain ⟨h1, h2⟩ := h
  unfold applyReplacement
  rw [List.take_append_eq_append_take, List.drop_append_eq_append_drop,
    Nat.sub_eq_zero_of_le (by omega : r.original.start + 1 ≤ A.length),
    Nat.sub_eq_zero_of_le (by omega : r.original.endP - 1 ≤ A.length)]
  simp

theorem length_applyReplacement_ge {A : List Char} {r : Replacement} (h : ReplWF A r) :
    r.original.start + 1 ≤ (applyReplacement A r).length := by
  obtain ⟨h1, h2⟩ := h
  unfold applyReplacement
  simp only [List.length_append, List.length_take]
  omega

theorem applyReplacement_eq (t : List Char) (q : Replacement) :
    applyReplacement t q =
      t.take (q.original.start + 1) ++
        (q.updatedLocation ++ t.drop (q.original.endP - 1)) := by
  unfold applyReplacement
  rw [List.append_assoc]

theorem applyReplacement_take_eq {t : List Char} {q : Replacement} (h : ReplWF t q) :
    (applyReplacement t q).take (q.original.start + 1) = t.take (q.original.start + 1) := by
  obtain ⟨h1, h2⟩ := h
  have hA : (t.take (q.original.start + 1)).length = q.original.start + 1 := by
    rw [List.length_take]; omega
  rw [applyReplacement_eq, List.take_append_eq_append_take, List.take_take, hA]
  simp

theorem descChain_bound {r : Replacement} {rs : List Replacement}
    (h : DescChain (r :: rs))
    (hwf : ∀ x ∈ rs, x.original.start + 2 ≤ x.original.endP) :
    ∀ x ∈ rs, x.original.endP ≤ r.original.start := by
  induction rs generalizing r with
  | nil => simp
  | cons b bs ih =>
    intro x hx
    rw [show DescChain (r :: b :: bs) = List.Chain' _ (r :: b :: bs) from rfl,
      List.chain'_cons] at h
    rcases List.mem_cons.mp hx with rfl | hx
    · exact h.1
    · have hb := hwf b (List.mem_cons_self b bs)
      have := ih h.2 (fun y hy => hwf y (List.mem_cons_of_mem b hy)) x hx
      omega

theorem descChain_tail {r : Replacement} {rs : List Replacement}
    (h : DescChain (r :: rs)) : DescChain rs :=
  List.Chain'.tail h

theorem replWF_tail {t : List Char} {q : Replacement} {rs : List Replacement}
    (hq : ReplWF t q)
    (hwf : ∀ x ∈ rs, x.original.start + 2 ≤ x.original.endP)
    (hb : ∀ x ∈ rs, x.original.endP ≤ q.original.start) :
    ∀ x ∈ rs, ReplWF (applyReplacement t q) x := by
  intro x hx
  refine ⟨hwf x hx, ?_⟩
  have := length_applyReplacement_ge hq
  have := hb x hx
  omega

theorem applyAll_append (l : List Replacement) : ∀ (A B : List Char),
    (∀ x ∈ l, ReplWF A x) → DescChain l →
    applyAll (A ++ B) l = applyAll A l ++ B := by
  induction l with
  | nil => intro A B _ _; rfl
  | cons r rs ih =>
    intro A B hwf hchain
    have hr := hwf r (List.mem_cons_self r rs)
    have hbound := descChain_bound hchain
      (fun x hx => (hwf x (List.mem_cons_of_mem r hx)).1)
    show applyAll (applyReplacement (A ++ B) r) rs = applyAll (applyReplacement A r) rs ++ B
    rw [applyReplacement_append B hr]
    exact ih (applyReplacement A r) B
      (replWF_tail hr (fun x hx => (hwf x (List.mem_cons_of_mem r hx)).1) hbound)
      (descChain_tail hchain)

theorem take_eq_of_take_eq {t t' : List Char} {m i k : Nat}
    (hm : t'.take m = t.take m) (hik : i + k ≤ m) :
    (t'.drop i).take k = (t.drop i).take k := by
  have h1 : t'.take (i + k) = t.take (i + k) := by
    have h := congrArg (List.take (i + k)) hm
    rwa [List.take_take, List.take_take, Nat.min_eq_left hik] at h
  have h2 := congrArg (List.drop i) h1
  rw [List.drop_take, List.drop_take, Nat.add_sub_cancel_left] at h2
  exact h2

theorem take_succ_decomp (t : List Char) (i : Nat) :
    t.take (i + 1) = t.take i ++ (t.drop i).take 1 :=
  List.take_add ..

theorem drop_decomp (t : List Char) (i : Nat) :
    t.drop i = (t.drop i).take 1 ++ t.drop (i + 1) := by
  conv_lhs => rw [← List.take_append_drop 1 (t.drop i)]
  rw [List.drop_drop]

theorem drop_split {t : List Char} {a b : Nat} (hab : a ≤ b) :
    t.drop a = (t.drop a).take (b - a) ++ t.drop b := by
  conv_lhs => rw [← List.take_append_drop (b - a) (t.drop a)]
  rw [List.drop_drop, show a + (b - a) = b by omega]

theorem applyAll_decomp (l : List Replacement) : ∀ (t : List Char) (r : Replacement),
    (∀ x ∈ l, ReplWF t x) → DescChain l → r ∈ l →
    ∃ P S, applyAll t l =
      P ++ ((t.drop r.original.start).take 1 ++
        (r.updatedLocation ++ ((t.drop (r.original.endP - 1)).take 1 ++ S))) := by
  induction l with
  | nil => intro t r _ _ hr; cases hr
  | cons q rs ih =>
    intro t r hwf hchain hr
    have hq := hwf q (List.mem_cons_self q rs)
    have hbound := descChain_bound hchain
      (fun x hx => (hwf x (List.mem_cons_of_mem q hx)).1)
    have hwf' := replWF_tail hq (fun x hx => (hwf x (List.mem_cons_of_mem q hx)).1) hbound
    have hstep : applyAll t (q :: rs) = applyAll (applyReplacement t q) rs := rfl
    rcases List.mem_cons.mp hr with rfl | hr
    · -- `r` is the head: it is applied first, and the remaining (smaller-offset)
      -- replacements only touch the text before its opening quote.
      obtain ⟨h1, h2⟩ := hq
      have hsrs : ∀ x ∈ rs, ReplWF (t.take r.original.start) x := by
        intro x hx
        refine ⟨(hwf x (List.mem_cons_of_mem r hx)).1, ?_⟩
        have := hbound x hx
        rw [List.length_take]
        omega
      have hsplit := applyAll_append rs (t.take r.original.start)
        ((t.drop r.original.start).take 1 ++
          (r.updatedLocation ++ ((t.drop (r.original.endP - 1)).take 1 ++ t.drop r.original.endP)))
        hsrs (descChain_tail hchain)
      refine ⟨applyAll (t.take r.original.start) rs, t.drop r.original.endP, ?_⟩
      rw [hstep, ← hsplit]
      congr 1
      rw [applyReplacement_eq]
      have he : r.original.endP - 1 + 1 = r.original.endP := by omega
      calc t.take (r.original.start + 1) ++
            (r.updatedLocation ++ t.drop (r.original.endP - 1))
          = (t.take r.original.start ++ (t.drop r.original.start).take 1) ++
            (r.updatedLocation ++
              ((t.drop (r.original.endP - 1)).take 1 ++ t.drop (r.original.endP - 1 + 1))) := by
            rw [← take_succ_decomp, ← drop_decomp]
        _ = t.take r.original.start ++
            ((t.drop r.original.start).take 1 ++
              (r.updatedLocation ++
                ((t.drop (r.original.endP - 1)).take 1 ++ t.drop r.original.endP))) := by
            rw [he, List.append_assoc]
    · -- `r` sits later in the list: the head is applied first but leaves the
      -- first `q.start + 1` characters — and with them `r`'s whole range — intact.
      obtain ⟨P, S, hPS⟩ := ih (applyReplacement t q) r hwf' (descChain_tail hchain) hr
      have hrq : r.original.endP ≤ q.original.start := hbound r hr
      have hrwf := (hwf r (List.mem_cons_of_mem q hr)).1
      have htk := applyReplacement_take_eq hq
      have hseg1 : ((applyReplacement t q).drop r.original.start).take 1 =
          (t.drop r.original.start).take 1 :=
        take_eq_of_take_eq htk (by omega)
      have hseg2 : ((applyReplacement t q).drop (r.original.endP - 1)).take 1 =
          (t.drop (r.original.endP - 1)).take 1 :=
        take_eq_of_take_eq htk (by omega)
      refine ⟨P, S, ?_⟩
      rw [hstep, hPS, hseg1, hseg2]

theorem applyAll_segment (l : List Replacement) : ∀ (t : List Char) (a b : Nat),
    (∀ x ∈ l, ReplWF t x) → DescChain l →
    (∀ x ∈ l, x.original.endP - 1 ≤ a ∨ b ≤ x.original.start + 1) →
    a ≤ b → b ≤ t.length →
    ∃ P S, applyAll t l = P ++ ((t.drop a).take (b - a) ++ S) := by
  induction l with
  | nil =>
    intro t a b _ _ _ hab hbt
    refine ⟨t.take a, t.drop b, ?_⟩
    calc applyAll t [] = t := rfl
      _ = t.take a ++ t.drop a := (List.take_append_drop a t).symm
      _ = t.take a ++ ((t.drop a).take (b - a) ++ t.drop b) := by rw [← drop_split hab]
  | cons q rs ih =>
    intro t a b hwf hchain hdisj hab hbt
    have hq := hwf q (List.mem_cons_self q rs)
    have hbound := descChain_bound hchain
      (fun x hx => (hwf x (List.mem_cons_of_mem q hx)).1)
    have hwf' := replWF_tail hq (fun x hx => (hwf x (List.mem_cons_of_mem q hx)).1) hbound
    have hstep : applyAll t (q :: rs) = applyAll (applyReplacement t q) rs := rfl
    obtain ⟨h1, h2⟩ := hq
    rcases hdisj q (List.mem_cons_self q rs) with hcase | hcase
    · -- the requested segment lies at or after the end of the head's interior:
      -- it survives inside the preserved suffix `t.drop (q.endP - 1)`.
      have hsrs : ∀ x ∈ rs, ReplWF (t.take (q.original.start + 1)) x := by
        intro x hx
        refine ⟨(hwf x (List.mem_cons_of_mem q hx)).1, ?_⟩
        have := hbound x hx
        rw [List.length_take]
        omega
      have hsplit := applyAll_append rs (t.take (q.original.start + 1))
        (q.updatedLocation ++ t.drop (q.original.endP - 1)) hsrs (descChain_tail hchain)
      refine ⟨applyAll (t.take (q.original.start + 1)) rs ++
        (q.updatedLocation ++ (t.drop (q.original.endP - 1)).take (a - (q.original.endP - 1))),
        t.drop b, ?_⟩
      rw [hstep, applyReplacement_eq, hsplit]
      conv_lhs => rw [drop_split hcase, drop_split hab]
      simp [List.append_assoc]
    · -- the requested segment lies before the head's interior: recurse, the
      -- head application leaves the first `q.start + 1` characters intact.
      obtain ⟨P, S, hPS⟩ := ih (applyReplacement t q) a b hwf' (descChain_tail hchain)
        (fun x hx => hdisj x (List.mem_cons_of_mem q hx)) hab
        (le_trans hcase (length_applyReplacement_ge ⟨h1, h2⟩))
      have htk := applyReplacement_take_eq ⟨h1, h2⟩
      have hseg : ((applyReplacement t q).drop a).take (b - a) = (t.drop a).take (b - a) :=
        take_eq_of_take_eq htk (by omega)
      exact ⟨P, S, by rw [hstep, hPS, hseg]⟩

/-! ## Sorting and planner-invariant glue -/

theorem disj_symm : ∀ {a b : Replacement}, Disj a b → Disj b a :=
  fun h => Or.symm h

theorem sortDesc_mem {l : List Replacement} {x : Replacement} :
    x ∈ sortDesc l ↔ x ∈ l :=
  List.mem_insertionSort replBefore

theorem sortDesc_sorted (l : List Replacement) : List.Sorted replBefore (sortDesc l) :=
  List.sorted_insertionSort replBefore l

theorem pairwise_chain {m : List Replacement}
    (hwf : ∀ x ∈ m, x.original.start + 2 ≤ x.original.endP)
    (hp : m.Pairwise fun a b => replBefore a b ∧ Disj a b) : DescChain m := by
  induction m with
  | nil => exact List.chain'_nil
  | cons q rs ih =>
    rcases List.pairwise_cons.mp hp with ⟨hq, hrs⟩
    have hchain := ih (fun x hx => hwf x (List.mem_cons_of_mem q hx)) hrs
    cases rs with
    | nil => exact List.chain'_singleton q
    | cons b bs =>
      refine List.chain'_cons.mpr ⟨?_, hchain⟩
      rcases hq b (List.mem_cons_self b bs) with ⟨hrb, hdisj⟩
      have hqwf := hwf q (List.mem_cons_self q (b :: bs))
      unfold replBefore at hrb
      unfold Disj at hdisj
      rcases hdisj with h | h
      · omega
      · exact h

theorem sortDesc_chain {t : List Char} {l : List Replacement}
    (hwf : ∀ x ∈ l, ReplWF t x) (hd : l.Pairwise Disj) :
    DescChain (sortDesc l) := by
  have hd' : (sortDesc l).Pairwise Disj :=
    ((List.perm_insertionSort replBefore l).pairwise_iff disj_symm).mpr hd
  have hs : (sortDesc l).Pairwise replBefore := sortDesc_sorted l
  exact pairwise_chain (fun x hx => (hwf x (sortDesc_mem.mp hx)).1) (hs.and hd')

/-! ## The insertion loop -/

theorem prependAll_cons (i : List Char) (is : List (List Char)) (z : List Char) :
    prependAll (i :: is) z = prependAll is (i ++ '\n' :: z) := rfl

theorem prependAll_exists (inss : List (List Char)) : ∀ z : List Char,
    ∃ Q, prependAll inss z = Q ++ z := by
  induction inss with
  | nil => exact fun z => ⟨[], rfl⟩
  | cons i is ih =>
    intro z
    obtain ⟨Q, hQ⟩ := ih (i ++ '\n' :: z)
    refine ⟨Q ++ (i ++ ['\n']), ?_⟩
    rw [prependAll_cons, hQ]
    simp

theorem prependAll_eq_joinIns (inss : List (List Char)) : ∀ z : List Char,
    prependAll inss z = joinIns inss.reverse z := by
  induction inss with
  | nil => exact fun _ => rfl
  | cons i is ih =>
    intro z
    rw [prependAll_cons, ih (i ++ '\n' :: z), List.reverse_cons]
    show joinIns is.reverse (i ++ '\n' :: z) = joinIns (is.reverse ++ [i]) z
    unfold joinIns
    rw [List.foldr_append]
    rfl

theorem mem_prependAll {inss : List (List Char)} {i : List Char} (hi : i ∈ inss) :
    ∀ z : List Char, ∃ P S, prependAll inss z = P ++ (i ++ S) := by
  induction inss with
  | nil => cases hi
  | cons j js ih =>
    intro z
    rcases List.mem_cons.mp hi with rfl | hi
    · obtain ⟨Q, hQ⟩ := prependAll_exists js (i ++ '\n' :: z)
      exact ⟨Q, '\n' :: z, by rw [prependAll_cons, hQ]⟩
    · obtain ⟨P, S, hPS⟩ := ih hi (j ++ '\n' :: z)
      exact ⟨P, S, by rw [prependAll_cons, hPS]⟩

/-! ## `filterMap` bookkeeping -/

theorem length_filterMap_eq_countP {α β : Type} (f : α → Option β) (l : List α) :
    (l.filterMap f).length = l.countP fun a => (f a).isSome := by
  induction l with
  | nil => rfl
  | cons a l ih =>
    rw [List.filterMap_cons, List.countP_cons]
    cases h : f a
    · simp [h, ih]
    · simp [h, ih]

theorem filterMap_eq_singleton {α β : Type} (f : α → Option β) {l : List α}
    (h : l.countP (fun a => (f a).isSome) = 1) {a₀ : α} {v : β} (ha₀ : a₀ ∈ l)
    (hv : f a₀ = some v) : l.filterMap f = [v] := by
  induction l with
  | nil => cases ha₀
  | cons a l ih =>
    rw [List.countP_cons] at h
    rw [List.filterMap_cons]
    rcases List.mem_cons.mp ha₀ with rfl | ha
    · rw [hv]
      rw [hv] at h
      simp at h
      have hnil : l.filterMap f = [] := by
        rw [List.filterMap_eq_nil_iff]
        exact h
      rw [hnil]
    · cases hfa : f a
      · rw [hfa] at h
        simp at h
        exact ih h ha
      · exfalso
        rw [hfa] at h
        simp at h
        have := h a₀ ha
        rw [hv] at this
        cases this

/-! ## Facts about the rule table -/

theorem not_awsCdk_of_monoScope (s : List Char) :
    ¬ awsCdkPrefixChars <+: ("aws-cdk-lib/".data ++ s) := by
  intro h
  obtain ⟨u, hu⟩ := h
  rw [show awsCdkPrefixChars = '@' :: "aws-cdk/".data by decide,
    show "aws-cdk-lib/".data = 'a' :: "ws-cdk-lib/".data by decide,
    List.cons_append, List.cons_append] at hu
  injection hu with hc _
  exact absurd hc (by decide)

theorem updatedLocationOf_shapes {p q : List Char} (h : updatedLocationOf p = some q) :
    q = "aws-cdk-lib".data ∨ q = "@aws-cdk/assert".data ∨ q = "@aws-cdk/assert/jest".data ∨
      ∃ s, q = "aws-cdk-lib/".data ++ s := by
  unfold updatedLocationOf at h
  split_ifs at h
  · exact Or.inl (Option.some.inj h).symm
  · exact Or.inr (Or.inl (Option.some.inj h).symm)
  · exact Or.inr (Or.inr (Or.inl (Option.some.inj h).symm))
  · exact Or.inr (Or.inr (Or.inr ⟨p.drop 9, (Option.some.inj h).symm⟩))

theorem updatedLocationOf_core :
    updatedLocationOf "@aws-cdk/core".data = some "aws-cdk-lib".data := by decide

theorem updatedLocationOf_rewritePath (p : List Char) :
    updatedLocationOf (rewritePath p) = none ∨
      updatedLocationOf (rewritePath p) = some (rewritePath p) := by
  unfold rewritePath
  cases h : updatedLocationOf p with
  | none =>
    rw [Option.getD_none]
    exact Or.inl h
  | some q =>
    rw [Option.getD_some]
    rcases updatedLocationOf_shapes h with rfl | rfl | rfl | ⟨s, rfl⟩
    · exact Or.inl (by decide)
    · exact Or.inr (by decide)
    · exact Or.inr (by decide)
    · refine Or.inl ?_
      unfold updatedLocationOf
      rw [if_pos (Or.inl (not_awsCdk_of_monoScope s))]

theorem rewritePath_ne_core (p : List Char) :
    rewritePath p ≠ "@aws-cdk/core".data := by
  unfold rewritePath
  cases h : updatedLocationOf p with
  | none =>
    rw [Option.getD_none]
    intro hp
    rw [hp, updatedLocationOf_core] at h
    cases h
  | some q =>
    rw [Option.getD_some]
    rcases updatedLocationOf_shapes h with rfl | rfl | rfl | ⟨s, rfl⟩
    · decide
    · decide
    · decide
    · intro hq
      rw [show "aws-cdk-lib/".data = 'a' :: "ws-cdk-lib/".data by decide,
        show ("@aws-cdk/core").data = '@' :: "aws-cdk/core".data by decide,
        List.cons_append] at hq
      injection hq with hc _
      exact absurd hc (by decide)

/-! ## No-op replacements -/

theorem applyReplacement_self {t : List Char} {r : Replacement}
    (hlit : LitWF t r.original) (hupd : r.updatedLocation = r.original.text) :
    applyReplacement t r = t := by
  obtain ⟨h1, h2, h3⟩ := hlit
  unfold applyReplacement
  rw [hupd, ← h3]
  have he : r.original.endP - 1 = r.original.start + 1 + r.original.text.length := by omega
  have hd : t.drop (r.original.start + 1 + r.original.text.length) =
      (t.drop (r.original.start + 1)).drop r.original.text.length := by
    rw [List.drop_drop]
  rw [he, hd, List.append_assoc, List.take_append_drop, List.take_append_drop]

theorem applyAll_id {t : List Char} {l : List Replacement}
    (h : ∀ r ∈ l, applyReplacement t r = t) : applyAll t l = t := by
  induction l with
  | nil => rfl
  | cons r rs ih =>
    show applyAll (applyReplacement t r) rs = t
    rw [h r (List.mem_cons_self r rs)]
    exact ih fun x hx => h x (List.mem_cons_of_mem r hx)

/-! ## Characterizing the planned edits -/

theorem mem_replacementsOf {stmts : List TopStmt} {r : Replacement} :
    r ∈ replacementsOf stmts ↔ ∃ st ∈ stmts, replacementFor st = some r := by
  unfold replacementsOf
  exact List.mem_filterMap

theorem replacementFor_some {st : TopStmt} {ms : ModSpec} {newTarget : List Char}
    (hms : getModuleSpecifier st.node = some ms)
    (hupd : updatedLocationOf ms.module.text = some newTarget) :
    replacementFor st = some ⟨ms.module, newTarget⟩ := by
  simp only [replacementFor, hms, hupd]

theorem replacementFor_inv {st : TopStmt} {r : Replacement}
    (h : replacementFor st = some r) :
    ∃ ms, getModuleSpecifier st.node = some ms ∧
      updatedLocationOf ms.module.text = some r.updatedLocation ∧
      r.original = ms.module := by
  unfold replacementFor at h
  split at h
  · rename_i ms hms
    split at h
    · rename_i newTarget hupd
      obtain rfl := (Option.some.inj h).symm
      exact ⟨ms, hms, hupd, rfl⟩
    · cases h
  · cases h

theorem insertionFor_inv {t : List Char} {st : TopStmt} {i : List Char}
    (h : insertionFor t st = some i) :
    ∃ ms, getModuleSpecifier st.node = some ms ∧
      ms.module.text = "@aws-cdk/core".data ∧
      symbolsInclude ms.symbols "Construct".data = true ∧
      i = getIndent t st.pos st.endP ++ constructsImportText := by
  unfold insertionFor at h
  split at h
  · rename_i ms hms
    split at h
    · rename_i hcond
      exact ⟨ms, hms, hcond.1, hcond.2, (Option.some.inj h).symm⟩
    · cases h
  · cases h

theorem insertionFor_some {t : List Char} {st : TopStmt} {ms : ModSpec}
    (hms : getModuleSpecifier st.node = some ms)
    (hcore : ms.module.text = "@aws-cdk/core".data)
    (hsym : symbolsInclude ms.symbols "Construct".data = true) :
    insertionFor t st = some (getIndent t st.pos st.endP ++ constructsImportText) := by
  simp only [insertionFor, hms, if_pos (And.intro hcore hsym)]

theorem insertionFor_none_of_not_core {t : List Char} {st : TopStmt}
    (h : ∀ ms, getModuleSpecifier st.node = some ms →
      ms.module.text ≠ "@aws-cdk/core".data) :
    insertionFor t st = none := by
  unfold insertionFor
  split
  · rename_i ms hms
    rw [if_neg]
    intro hc
    exact h ms hms hc.1
  · rfl

theorem symbolsInclude_some_iff {syms : List (List Char)} {nm : List Char} :
    symbolsInclude (some syms) nm = true ↔ nm ∈ syms := by
  simp [symbolsInclude]

/-! ## Claim C1 -/

/-- C1 (counterexample): `'@aws-cdk/assert'` starts with the deprecated
prefix, is not in the exemption set, and differs from the root aggregator,
yet the rule table does *not* return `'aws-cdk-lib/' + suffix` for it — it
returns the path itself (a passthrough the claim omits). -/
theorem updatedLocationOf_assert_cex :
    awsCdkPrefixChars <+: "@aws-cdk/assert".data ∧
    "@aws-cdk/assert".data ∉ EXEMPTIONS ∧
    "@aws-cdk/assert".data ≠ "@aws-cdk/core".data ∧
    updatedLocationOf "@aws-cdk/assert".data ≠
      some ("aws-cdk-lib/".data ++ ("@aws-cdk/assert".data).drop 9) ∧
    updatedLocationOf "@aws-cdk/assert".data = some "@aws-cdk/assert".data := by
  decide

/-- C1 (amended): the rule table maps a path outside the deprecated prefix,
or in the exemption set, to `none`; maps the root aggregator `'@aws-cdk/core'`
to `'aws-cdk-lib'`; maps the two passthrough paths `'@aws-cdk/assert'` and
`'@aws-cdk/assert/jest'` to themselves; and maps every *other* path under
the deprecated prefix to `'aws-cdk-lib/' + suffix` with the prefix
stripped. -/
theorem updatedLocationOf_cases (p : List Char) :
    (¬ awsCdkPrefixChars <+: p → updatedLocationOf p = none) ∧
    (p ∈ EXEMPTIONS → updatedLocationOf p = none) ∧
    (p = "@aws-cdk/core".data → updatedLocationOf p = some "aws-cdk-lib".data) ∧
    (p = "@aws-cdk/assert".data → updatedLocationOf p = some "@aws-cdk/assert".data) ∧
    (p = "@aws-cdk/assert/jest".data →
      updatedLocationOf p = some "@aws-cdk/assert/jest".data) ∧
    (awsCdkPrefixChars <+: p → p ∉ EXEMPTIONS → p ≠ "@aws-cdk/core".data →
      p ≠ "@aws-cdk/assert".data → p ≠ "@aws-cdk/assert/jest".data →
      updatedLocationOf p = some ("aws-cdk-lib/".data ++ p.drop 9)) := by
  refine ⟨fun h => ?_, fun h => ?_, fun h => ?_, fun h => ?_, fun h => ?_,
    fun h1 h2 h3 h4 h5 => ?_⟩
  · unfold updatedLocationOf
    rw [if_pos (Or.inl h)]
  · unfold updatedLocationOf
    rw [if_pos (Or.inr h)]
  · subst h; decide
  · subst h; decide
  · subst h; decide
  · unfold updatedLocationOf
    rw [if_neg (fun hc => hc.elim (fun hnp => hnp h1) h2),
      if_neg h3, if_neg h4, if_neg h5]

/-- C1 (witness): the amended rule-table theorem evaluated on a generic
legacy path and on a non-legacy path. -/
theorem updatedLocationOf_cases_witness :
    updatedLocationOf "@aws-cdk/aws-s3".data =
      some ("aws-cdk-lib/".data ++ ("@aws-cdk/aws-s3".data).drop 9) ∧
    updatedLocationOf "constructs".data = none :=
  ⟨(updatedLocationOf_cases "@aws-cdk/aws-s3".data).2.2.2.2.2
      (by decide) (by decide) (by decide) (by decide) (by decide),
    (updatedLocationOf_cases "constructs".data).1 (by decide)⟩

/-! ## Claim C5 -/

/-- C5: for every planned replacement, under the planner invariant
(in-bounds, pairwise-disjoint literal ranges), the output text contains —
in place of the literal — the input's character at the literal's `getStart`
offset (the opening quote), then the replacement path, then the input's
character at `getEnd - 1` (the closing quote): the replacement covers
exactly the literal's interior and the input's quote characters survive
around the rewritten path. -/
theorem quote_preserved {t : List Char} {stmts : List TopStmt} {r : Replacement}
    (hr : r ∈ replacementsOf stmts)
    (hwf : ∀ x ∈ replacementsOf stmts, ReplWF t x)
    (hpair : (replacementsOf stmts).Pairwise Disj) :
    ∃ P S, rewriteImports t stmts =
      P ++ ((t.drop r.original.start).take 1 ++ (r.updatedLocation ++
        ((t.drop (r.original.endP - 1)).take 1 ++ S))) := by
  have hwfL : ∀ x ∈ sortDesc (replacementsOf stmts), ReplWF t x :=
    fun x hx => hwf x (sortDesc_mem.mp hx)
  have hchain := sortDesc_chain hwf hpair
  obtain ⟨P, S, hPS⟩ := applyAll_decomp _ t r hwfL hchain (sortDesc_mem.mpr hr)
  obtain ⟨Q, hQ⟩ := prependAll_exists (insertionsOf t stmts)
    (applyAll t (sortDesc (replacementsOf stmts)))
  refine ⟨Q ++ P, S, ?_⟩
  show prependAll (insertionsOf t stmts)
    (applyAll t (sortDesc (replacementsOf stmts))) = _
  rw [hQ, hPS]
  simp [List.append_assoc]

/-- C5 (witness): the quote-preservation theorem evaluated on
`import { Construct } from "@aws-cdk/core";`. -/
theorem quote_preserved_witness :
    ∃ P S, rewriteImports exCoreText [exCoreStmt] =
      P ++ ((exCoreText.drop 26).take 1 ++ ("aws-cdk-lib".data ++
        ((exCoreText.drop 40).take 1 ++ S))) :=
  @quote_preserved exCoreText [exCoreStmt] ⟨exCoreLit, "aws-cdk-lib".data⟩
    (by decide) (by decide) (by decide)

/-! ## Claim C6 -/

/-- C6: a recognized import whose path is the exemption
`'@aws-cdk/cloudformation-diff'` or one of the passthroughs
`'@aws-cdk/assert'` / `'@aws-cdk/assert/jest'` keeps its literal path text
unchanged in the output (under the planner invariant, with the literal
faithful to the text and every planned edit either being this statement's
own or disjoint from its literal). -/
theorem exempt_literal_preserved {t : List Char} {stmts : List TopStmt} {st : TopStmt}
    {ms : ModSpec}
    (hst : st ∈ stmts) (hms : getModuleSpecifier st.node = some ms)
    (hpath : ms.module.text = "@aws-cdk/cloudformation-diff".data ∨
      ms.module.text = "@aws-cdk/assert".data ∨
      ms.module.text = "@aws-cdk/assert/jest".data)
    (hlit : LitWF t ms.module)
    (hwf : ∀ r ∈ replacementsOf stmts, ReplWF t r)
    (hpair : (replacementsOf stmts).Pairwise Disj)
    (hdisj : ∀ r ∈ replacementsOf stmts, r.original = ms.module ∨
      r.original.endP ≤ ms.module.start ∨ ms.module.endP ≤ r.original.start) :
    ∃ P S, rewriteImports t stmts = P ++ (ms.module.text ++ S) := by
  obtain ⟨hlen, hend, hint⟩ := hlit
  have hwfL : ∀ x ∈ sortDesc (replacementsOf stmts), ReplWF t x :=
    fun x hx => hwf x (sortDesc_mem.mp hx)
  have hchain := sortDesc_chain hwf hpair
  obtain ⟨Q, hQ⟩ := prependAll_exists (insertionsOf t stmts)
    (applyAll t (sortDesc (replacementsOf stmts)))
  rcases hpath with hp | hp
  · -- exemption: the rule table returns `none`, so no edit touches the literal.
    have hnot : ∀ r ∈ replacementsOf stmts, r.original ≠ ms.module := by
      intro r hrm heq
      obtain ⟨st', hst', hf⟩ := mem_replacementsOf.mp hrm
      obtain ⟨ms', hms', hupd, hor⟩ := replacementFor_inv hf
      rw [hor] at heq
      rw [heq, hp,
        show updatedLocationOf "@aws-cdk/cloudformation-diff".data = none from by decide]
        at hupd
      cases hupd
    have hcond : ∀ x ∈ sortDesc (replacementsOf stmts),
        x.original.endP - 1 ≤ ms.module.start + 1 ∨
          ms.module.endP - 1 ≤ x.original.start + 1 := by
      intro x hx
      have hxm := sortDesc_mem.mp hx
      rcases hdisj x hxm with h | h | h
      · exact absurd h (hnot x hxm)
      · exact Or.inl (by omega)
      · exact Or.inr (by omega)
    obtain ⟨P, S, hPS⟩ := applyAll_segment _ t (ms.module.start + 1) (ms.module.endP - 1)
      hwfL hchain hcond (by omega) (by omega)
    have hseg : (t.drop (ms.module.start + 1)).take
        (ms.module.endP - 1 - (ms.module.start + 1)) = ms.module.text := by
      rw [show ms.module.endP - 1 - (ms.module.start + 1) = ms.module.text.length by omega]
      exact hint
    refine ⟨Q ++ P, S, ?_⟩
    show prependAll (insertionsOf t stmts)
      (applyAll t (sortDesc (replacementsOf stmts))) = _
    rw [hQ, hPS, hseg]
    simp [List.append_assoc]
  · -- passthrough: the statement's own replacement rewrites the interior
    -- with the very same text.
    have hupd : updatedLocationOf ms.module.text = some ms.module.text := by
      rcases hp with hp | hp <;> rw [hp] <;> decide
    have hrmem : (⟨ms.module, ms.module.text⟩ : Replacement) ∈ replacementsOf stmts :=
      mem_replacementsOf.mpr ⟨st, hst, replacementFor_some hms hupd⟩
    obtain ⟨P, S, hPS⟩ := applyAll_decomp _ t ⟨ms.module, ms.module.text⟩
      hwfL hchain (sortDesc_mem.mpr hrmem)
    refine ⟨Q ++ (P ++ (t.drop ms.module.start).take 1),
      (t.drop (ms.module.endP - 1)).take 1 ++ S, ?_⟩
    show prependAll (insertionsOf t stmts)
      (applyAll t (sortDesc (replacementsOf stmts))) = _
    rw [hQ, hPS]
    simp [List.append_assoc]

/-- C6 (witness): the exemption-preservation theorem evaluated on
`import { expect } from "@aws-cdk/assert";`. -/
theorem exempt_literal_preserved_witness :
    ∃ P S, rewriteImports exAssertText [exAssertStmt] =
      P ++ ("@aws-cdk/assert".data ++ S) :=
  @exempt_literal_preserved exAssertText [exAssertStmt] exAssertStmt
    ⟨exAssertLit, .named, some ["expect".data]⟩
    (List.mem_singleton_self exAssertStmt) rfl (by decide) (by decide)
    (by decide) (by decide) (by decide)

/-! ## Claim C8 -/

theorem getModuleSpecifier_require_malformed (args : List Node)
    (hmal : args.length = 0 ∨ 2 ≤ args.length ∨
      ∃ a, args = [a] ∧ ∀ lit, a ≠ Node.stringLit lit) :
    getModuleSpecifier (Node.callExpr (Node.identifier "require".data) args) = none := by
  cases args with
  | nil => rfl
  | cons a as =>
    cases as with
    | nil =>
      rcases hmal with h | h | ⟨c, hc, hne⟩
      · exact absurd h (by simp)
      · exact absurd h (by simp)
      · have hac : a = c := by injection hc
        subst hac
        cases a <;> try rfl
        case stringLit lit => exact absurd rfl (hne lit)
    | cons b bs => rfl

/-- C8: a statement that is a `require(...)` call (bare or wrapped in an
expression statement) with zero arguments, two or more arguments, or a
single non-string-literal argument is not recognized as an import
(`getModuleSpecifier` returns `none`), contributes no edit, and — under the
planner invariant with every other edit disjoint from the statement's range
— the statement's text appears unchanged in the output. -/
theorem malformed_require_skipped {t : List Char} {stmts : List TopStmt} {st : TopStmt}
    {args : List Node}
    (hst : st ∈ stmts)
    (hnode : st.node = Node.callExpr (Node.identifier "require".data) args ∨
      st.node = Node.exprStmt (Node.callExpr (Node.identifier "require".data) args))
    (hmal : args.length = 0 ∨ 2 ≤ args.length ∨
      ∃ a, args = [a] ∧ ∀ lit, a ≠ Node.stringLit lit)
    (hwf : ∀ r ∈ replacementsOf stmts, ReplWF t r)
    (hpair : (replacementsOf stmts).Pairwise Disj)
    (hpe : st.pos ≤ st.endP) (het : st.endP ≤ t.length)
    (hdisj : ∀ r ∈ replacementsOf stmts,
      r.original.endP ≤ st.pos ∨ st.endP ≤ r.original.start + 1) :
    getModuleSpecifier st.node = none ∧ replacementFor st = none ∧
    ∃ P S, rewriteImports t stmts =
      P ++ ((t.drop st.pos).take (st.endP - st.pos) ++ S) := by
  have hgms := getModuleSpecifier_require_malformed args hmal
  have hnone : getModuleSpecifier st.node = none := by
    rcases hnode with h | h
    · rw [h]; exact hgms
    · rw [h]; exact hgms
  refine ⟨hnone, by simp only [replacementFor, hnone], ?_⟩
  have hwfL : ∀ x ∈ sortDesc (replacementsOf stmts), ReplWF t x :=
    fun x hx => hwf x (sortDesc_mem.mp hx)
  have hchain := sortDesc_chain hwf hpair
  have hcond : ∀ x ∈ sortDesc (replacementsOf stmts),
      x.original.endP - 1 ≤ st.pos ∨ st.endP ≤ x.original.start + 1 := by
    intro x hx
    rcases hdisj x (sortDesc_mem.mp hx) with h | h
    · exact Or.inl (by omega)
    · exact Or.inr h
  obtain ⟨P, S, hPS⟩ := applyAll_segment _ t st.pos st.endP hwfL hchain hcond hpe het
  obtain ⟨Q, hQ⟩ := prependAll_exists (insertionsOf t stmts)
    (applyAll t (sortDesc (replacementsOf stmts)))
  refine ⟨Q ++ P, S, ?_⟩
  show prependAll (insertionsOf t stmts)
    (applyAll t (sortDesc (replacementsOf stmts))) = _
  rw [hQ, hPS]
  simp [List.append_assoc]

/-- C8 (witness): the malformed-require theorem evaluated on `require();`. -/
theorem malformed_require_skipped_witness :
    getModuleSpecifier exReqStmt.node = none ∧ replacementFor exReqStmt = none ∧
    ∃ P S, rewriteImports exReqText [exReqStmt] =
      P ++ ((exReqText.drop 0).take (10 - 0) ++ S) :=
  malformed_require_skipped (List.mem_singleton_self exReqStmt)
    (Or.inr rfl) (Or.inl rfl) (by decide) (by decide) (by decide) (by decide)
    (by decide)

/-! ## Claim C9 -/

/-- C9: a namespace import of `'@aws-cdk/core'` whose local alias is
literally `Construct` triggers the relocation insertion, because the
recorded symbol set of a namespace import is the singleton alias name:
the insertion line is pushed and lands in the output, before the patched
original text. -/
theorem namespace_alias_insertion {t : List Char} {stmts : List TopStmt} {st : TopStmt}
    {lit : StrLit} {nm : Option (List Char)}
    (hst : st ∈ stmts)
    (hnode : st.node = Node.importDecl (Node.stringLit lit)
      (some ⟨nm, some (NamedBindings.namespaceImport "Construct".data)⟩))
    (hlit : lit.text = "@aws-cdk/core".data) :
    getModuleSpecifier st.node =
      some ⟨lit, ImportKind.namespaceBinding, some ["Construct".data]⟩ ∧
    (getIndent t st.pos st.endP ++ constructsImportText) ∈ insertionsOf t stmts ∧
    ∃ P S, rewriteImports t stmts = P ++ (constructsImportText ++ S) := by
  have hspec : getModuleSpecifier st.node =
      some ⟨lit, ImportKind.namespaceBinding, some ["Construct".data]⟩ := by
    rw [hnode]; rfl
  have hins : insertionFor t st =
      some (getIndent t st.pos st.endP ++ constructsImportText) :=
    insertionFor_some hspec hlit
      (show symbolsInclude (some ["Construct".data]) "Construct".data = true by decide)
  have hmem : (getIndent t st.pos st.endP ++ constructsImportText) ∈ insertionsOf t stmts :=
    List.mem_filterMap.mpr ⟨st, hst, hins⟩
  refine ⟨hspec, hmem, ?_⟩
  obtain ⟨P, S, hPS⟩ := mem_prependAll hmem
    (applyAll t (sortDesc (replacementsOf stmts)))
  refine ⟨P ++ getIndent t st.pos st.endP, S, ?_⟩
  show prependAll (insertionsOf t stmts)
    (applyAll t (sortDesc (replacementsOf stmts))) = _
  rw [hPS]
  simp [List.append_assoc]

/-- C9 (witness): the namespace-alias theorem evaluated on
`import * as Construct from "@aws-cdk/core";`. -/
theorem namespace_alias_insertion_witness :
    getModuleSpecifier exNsStmt.node =
      some ⟨exNsLit, ImportKind.namespaceBinding, some ["Construct".data]⟩ ∧
    (getIndent exNsText 0 43 ++ constructsImportText) ∈ insertionsOf exNsText [exNsStmt] ∧
    ∃ P S, rewriteImports exNsText [exNsStmt] = P ++ (constructsImportText ++ S) :=
  namespace_alias_insertion (List.mem_singleton_self exNsStmt) rfl rfl

/-! ## Claim C2 -/

/-- C2 (counterexample): a source whose recognized imports include *exactly
one named* import binding `Construct` from `'@aws-cdk/core'` — but also a
namespace import aliased `Construct` of the same module — produces *two*
inserted statements, not one: the claim's "exactly one" fails as stated. -/
theorem single_construct_insertion_cex :
    List.countP isNamedConstructCore [exCoreStmt, exNsStmt2] = 1 ∧
    (insertionsOf exMixText [exCoreStmt, exNsStmt2]).length = 2 := by
  decide

/-- C2 (amended): when *exactly one recognized import statement triggers the
relocation rule* (its module is `'@aws-cdk/core'` and its recorded symbols
contain `Construct`) and that statement is a named import binding
`Construct`, then the output contains exactly one newly inserted
`import { Construct } from 'constructs';` statement, placed before the
(patched) original text, and the aggregator's module path is replaced by
`'aws-cdk-lib'` between its original quote characters. -/
theorem single_construct_insertion {t : List Char} {stmts : List TopStmt} {st : TopStmt}
    {lit : StrLit} {nm : Option (List Char)} {els : List ImportSpecifier}
    (hone : stmts.countP (fun s => (insertionFor t s).isSome) = 1)
    (hst : st ∈ stmts)
    (hnode : st.node = Node.importDecl (Node.stringLit lit)
      (some ⟨nm, some (NamedBindings.namedImports els)⟩))
    (hsym : "Construct".data ∈ els.map ImportSpecifier.name)
    (hcore : lit.text = "@aws-cdk/core".data)
    (hwf : ∀ r ∈ replacementsOf stmts, ReplWF t r)
    (hpair : (replacementsOf stmts).Pairwise Disj) :
    insertionsOf t stmts = [getIndent t st.pos st.endP ++ constructsImportText] ∧
    rewriteImports t stmts = (getIndent t st.pos st.endP ++ constructsImportText) ++
      '\n' :: applyAll t (sortDesc (replacementsOf stmts)) ∧
    ∃ P S, applyAll t (sortDesc (replacementsOf stmts)) =
      P ++ ((t.drop lit.start).take 1 ++ ("aws-cdk-lib".data ++
        ((t.drop (lit.endP - 1)).take 1 ++ S))) := by
  have hspec : getModuleSpecifier st.node =
      some ⟨lit, ImportKind.named, some (els.map fun e => e.name)⟩ := by
    rw [hnode]; rfl
  have hins : insertionFor t st =
      some (getIndent t st.pos st.endP ++ constructsImportText) :=
    insertionFor_some hspec hcore (symbolsInclude_some_iff.mpr (by simpa using hsym))
  have hsingle : insertionsOf t stmts =
      [getIndent t st.pos st.endP ++ constructsImportText] :=
    filterMap_eq_singleton (insertionFor t) hone hst hins
  refine ⟨hsingle, ?_, ?_⟩
  · show prependAll (insertionsOf t stmts)
      (applyAll t (sortDesc (replacementsOf stmts))) = _
    rw [hsingle]
    rfl
  · have hupd : updatedLocationOf lit.text = some "aws-cdk-lib".data := by
      rw [hcore]; decide
    have hrmem : (⟨lit, "aws-cdk-lib".data⟩ : Replacement) ∈ replacementsOf stmts :=
      mem_replacementsOf.mpr ⟨st, hst, replacementFor_some hspec hupd⟩
    have hwfL : ∀ x ∈ sortDesc (replacementsOf stmts), ReplWF t x :=
      fun x hx => hwf x (sortDesc_mem.mp hx)
    have hchain := sortDesc_chain hwf hpair
    exact applyAll_decomp _ t ⟨lit, "aws-cdk-lib".data⟩ hwfL hchain
      (sortDesc_mem.mpr hrmem)

/-- C2 (witness): the amended single-insertion theorem evaluated on
`import { Construct } from "@aws-cdk/core";` alone. -/
theorem single_construct_insertion_witness :
    insertionsOf exCoreText [exCoreStmt] =
      [getIndent exCoreText 0 42 ++ constructsImportText] ∧
    rewriteImports exCoreText [exCoreStmt] =
      (getIndent exCoreText 0 42 ++ constructsImportText) ++
        '\n' :: applyAll exCoreText (sortDesc (replacementsOf [exCoreStmt])) ∧
    ∃ P S, applyAll exCoreText (sortDesc (replacementsOf [exCoreStmt])) =
      P ++ ((exCoreText.drop 26).take 1 ++ ("aws-cdk-lib".data ++
        ((exCoreText.drop 40).take 1 ++ S))) :=
  single_construct_insertion (by decide) (List.mem_singleton_self exCoreStmt)
    rfl (by decide) rfl (by decide) (by decide)

/-! ## Claim C4 -/

/-- C4 (counterexample): with two triggering statements of different
indentation, the inserted lines appear at the top of the output in
*reverse* discovery order, not in discovery order as claimed. -/
theorem insertion_order_cex :
    insertionsOf exTwoText [exCoreStmt, exCoreStmt2] =
      [constructsImportText, ' ' :: ' ' :: constructsImportText] ∧
    rewriteImports exTwoText [exCoreStmt, exCoreStmt2] ≠
      joinIns (insertionsOf exTwoText [exCoreStmt, exCoreStmt2])
        (applyAll exTwoText (sortDesc (replacementsOf [exCoreStmt, exCoreStmt2]))) := by
  decide

/-- C4 (amended): the edit list handed to the patching loop is sorted by
descending start offset; all offset-based replacements are applied first,
and the accumulated insertions are then prepended, ending up at the top of
the output in *reverse* discovery order. -/
theorem edit_application_order (t : List Char) (stmts : List TopStmt) :
    List.Sorted replBefore (sortDesc (replacementsOf stmts)) ∧
    rewriteImports t stmts =
      joinIns (insertionsOf t stmts).reverse
        (applyAll t (sortDesc (replacementsOf stmts))) :=
  ⟨sortDesc_sorted _, prependAll_eq_joinIns _ _⟩

/-! ## Claim C3 -/

/-- C3: running the rewriter on an already-rewritten source is the
identity.  The hypothesis is the Syntax Tree Provider contract for a
rewritten text: every recognized module literal is faithful to the text and
its path is one the rewriter can produce (the image of `rewritePath` —
which contains every untouched path, every consolidated `aws-cdk-lib*`
path, the passthroughs, and `'constructs'`).  No produced path matches
`'@aws-cdk/core'` and the rule table is a no-op on all of them, so
`rewriteImports (rewriteImports s) = rewriteImports s`. -/
theorem rewrite_idempotent {t : List Char} {stmts : List TopStmt}
    (H : ∀ st ∈ stmts, ∀ ms, getModuleSpecifier st.node = some ms →
      LitWF t ms.module ∧ ∃ q, rewritePath q = ms.module.text) :
    rewriteImports t stmts = t := by
  have hins : insertionsOf t stmts = [] := by
    show stmts.filterMap (insertionFor t) = []
    rw [List.filterMap_eq_nil_iff]
    intro st hst
    apply insertionFor_none_of_not_core
    intro ms hms hcore
    obtain ⟨_, q, hq⟩ := H st hst ms hms
    exact rewritePath_ne_core q (by rw [hq, hcore])
  have hrep : ∀ r ∈ sortDesc (replacementsOf stmts), applyReplacement t r = t := by
    intro r hr
    obtain ⟨st, hst, hf⟩ := mem_replacementsOf.mp (sortDesc_mem.mp hr)
    obtain ⟨ms, hms, hupd, hor⟩ := replacementFor_inv hf
    obtain ⟨hlit, q, hq⟩ := H st hst ms hms
    have hnoop := updatedLocationOf_rewritePath q
    rw [hq] at hnoop
    rcases hnoop with hnone | hsame
    · rw [hupd] at hnone; cases hnone
    · rw [hupd] at hsame
      have hloc : r.updatedLocation = ms.module.text := Option.some.inj hsame
      exact applyReplacement_self (by rw [hor]; exact hlit) (by rw [hloc, hor])
  show prependAll (insertionsOf t stmts)
    (applyAll t (sortDesc (replacementsOf stmts))) = t
  rw [hins, applyAll_id hrep]
  rfl

/-- C3 (witness): the idempotence theorem evaluated on the already-rewritten
source `import * as s3 from "aws-cdk-lib/aws-s3";`. -/
theorem rewrite_idempotent_witness :
    rewriteImports exDoneText [exDoneStmt] = exDoneText :=
  rewrite_idempotent (by
    intro st hst ms hms
    rcases List.mem_singleton.mp hst with rfl
    have hms' : ms = ⟨exDoneLit, ImportKind.namespaceBinding, some ["s3".data]⟩ :=
      Option.some.inj hms.symm
    subst hms'
    exact ⟨by decide, "@aws-cdk/aws-s3".data, by decide⟩)

/-! ## Claim C7 -/

/-- C7 (counterexample): for `import { Construct as Ctor } from
"@aws-cdk/core";` the matcher records the *local* alias `Ctor`, not the
original exported name `Construct` — and consequently the relocation
insertion does not fire even though the statement imports the relocated
symbol under its exported name. -/
theorem renamed_import_cex :
    getModuleSpecifier exRenStmt.node =
      some ⟨exRenLit, ImportKind.named, some ["Ctor".data]⟩ ∧
    (getModuleSpecifier exRenStmt.node).map (fun ms => ms.symbols) ≠
      some (some ["Construct".data]) ∧
    insertionFor exRenText exRenStmt = none ∧
    insertionsOf exRenText [exRenStmt] = [] := by
  decide

/-- C7 (amended): for a named import the matcher records, for each import
specifier, its *local binding name* (`e.name.text`, i.e. the alias after
`as` when present), never the original exported name (`propertyName` is
ignored); the relocation rule is therefore keyed on local names. -/
theorem named_symbols_are_local_names (lit : StrLit) (nm : Option (List Char))
    (els : List ImportSpecifier) :
    getModuleSpecifier (Node.importDecl (Node.stringLit lit)
        (some ⟨nm, some (NamedBindings.namedImports els)⟩)) =
      some ⟨lit, ImportKind.named, some (els.map ImportSpecifier.name)⟩ ∧
    (symbolsInclude (some (els.map ImportSpecifier.name)) "Construct".data = true ↔
      "Construct".data ∈ els.map ImportSpecifier.name) := by
  exact ⟨rfl, symbolsInclude_some_iff⟩

/-! ## Claim C10 -/

/-- C10 (counterexample): on the default-only import
`import foo from "@aws-cdk/aws-s3";` — a source with no `Construct` binding
from `'@aws-cdk/core'` at all — the first version rewrites the path while
the second version leaves the statement untouched, so the two versions of
`rewriteImports` do not return identical output. -/
theorem versions_differ_cex :
    (∀ ms, getModuleSpecifier exDefStmt.node = some ms →
      ¬(ms.module.text = "@aws-cdk/core".data ∧
        symbolsInclude ms.symbols "Construct".data = true)) ∧
    rewriteImportsV1 exDefText [exDefStmt] ≠ rewriteImports exDefText [exDefStmt] := by
  constructor
  · intro ms hms
    rw [show getModuleSpecifier exDefStmt.node = none from rfl] at hms
    cases hms
  · decide

theorem gms_agree_call (f : Node) (args : List Node) :
    (getModuleSpecifier (Node.callExpr f args)).map (fun ms => ms.module) =
      getModuleSpecifierV1 (Node.callExpr f args) := by
  cases f <;> try rfl
  case identifier esc =>
    by_cases hesc : esc = "require".data
    · subst hesc
      cases args with
      | nil => rfl
      | cons a as =>
        cases as with
        | nil => cases a <;> rfl
        | cons b bs => rfl
    · have h1 : getModuleSpecifier (Node.callExpr (Node.identifier esc) args) = none := by
        unfold getModuleSpecifier
        exact if_neg hesc
      have h2 : getModuleSpecifierV1 (Node.callExpr (Node.identifier esc) args) = none := by
        unfold getModuleSpecifierV1
        exact if_neg hesc
      rw [h1, h2]
      rfl

/-- On every node except a default-only import declaration, the two
versions' `getModuleSpecifier` recognize exactly the same module
literal. -/
theorem gms_agree (n : Node)
    (hdef : ∀ lit c, n = Node.importDecl (Node.stringLit lit) (some c) →
      c.namedBindings ≠ none) :
    (getModuleSpecifier n).map (fun ms => ms.module) = getModuleSpecifierV1 n := by
  cases n with
  | importDecl spec clause =>
    cases spec with
    | stringLit lit =>
      cases clause with
      | none => rfl
      | some c =>
        obtain ⟨cn, cb⟩ := c
        cases cb with
        | none => exact absurd rfl (hdef lit ⟨cn, none⟩ rfl)
        | some nb => cases nb <;> rfl
    | binaryExpr l r =>
      show (if r.isCallExpr then getModuleSpecifier r else none).map (fun ms => ms.module) =
        if r.isCallExpr then getModuleSpecifierV1 r else none
      cases r <;> try rfl
      case callExpr f as => exact gms_agree_call f as
    | importDecl a b => rfl
    | importEqualsDecl a b => rfl
    | externalModuleRef e => rfl
    | callExpr f as => rfl
    | exprStmt e => rfl
    | identifier i => rfl
    | other => rfl
  | importEqualsDecl nm mr =>
    cases mr with
    | externalModuleRef e => cases e <;> rfl
    | _ => rfl
  | callExpr f as => exact gms_agree_call f as
  | exprStmt e =>
    show (if e.isCallExpr then getModuleSpecifier e else none).map (fun ms => ms.module) =
      if e.isCallExpr then getModuleSpecifierV1 e else none
    cases e <;> try rfl
    case callExpr f as => exact gms_agree_call f as
  | externalModuleRef e => rfl
  | stringLit lit => rfl
  | identifier i => rfl
  | binaryExpr l r => rfl
  | other => rfl

/-- C10 (amended): the two versions of `rewriteImports` return identical
output for every source in which no recognized import of `'@aws-cdk/core'`
records a symbol named `Construct` *and* no statement is a default-only
form of import declaration (an import clause with no named bindings) — the one
shape the second version's `getModuleSpecifier` no longer recognizes. -/
theorem versions_agree {t : List Char} {stmts : List TopStmt}
    (hnoc : ∀ st ∈ stmts, ∀ ms, getModuleSpecifier st.node = some ms →
      ¬(ms.module.text = "@aws-cdk/core".data ∧
        symbolsInclude ms.symbols "Construct".data = true))
    (hnodef : ∀ st ∈ stmts, ∀ lit c,
      st.node = Node.importDecl (Node.stringLit lit) (some c) →
      c.namedBindings ≠ none) :
    rewriteImportsV1 t stmts = rewriteImports t stmts := by
  have hins : insertionsOf t stmts = [] := by
    show stmts.filterMap (insertionFor t) = []
    rw [List.filterMap_eq_nil_iff]
    intro st hst
    unfold insertionFor
    split
    · rename_i ms hms
      exact if_neg (hnoc st hst ms hms)
    · rfl
  have hrepl : replacementsV1Of stmts = replacementsOf stmts := by
    unfold replacementsV1Of replacementsOf
    apply List.filterMap_congr
    intro st hst
    have hagree := gms_agree st.node (hnodef st hst)
    unfold replacementV1For replacementFor
    cases hms : getModuleSpecifier st.node with
    | none =>
      rw [hms] at hagree
      rw [← hagree]
      simp
    | some ms =>
      rw [hms] at hagree
      rw [← hagree]
      simp
  show applyAll t (sortDesc (replacementsV1Of stmts)) =
    prependAll (insertionsOf t stmts) (applyAll t (sortDesc (replacementsOf stmts)))
  rw [hins, hrepl]
  rfl

/-- C10 (witness): the amended agreement theorem evaluated on
`import { expect } from "@aws-cdk/assert";`. -/
theorem versions_agree_witness :
    rewriteImportsV1 exAssertText [exAssertStmt] =
      rewriteImports exAssertText [exAssertStmt] :=
  versions_agree
    (by
      intro st hst ms hms
      rcases List.mem_singleton.mp hst with rfl
      have hms' : ms = ⟨exAssertLit, ImportKind.named, some ["expect".data]⟩ :=
        Option.some.inj hms.symm
      subst hms'
      decide)
    (by
      intro st hst lit c hnode
      rcases List.mem_singleton.mp hst with rfl
      injection hnode with hA hB
      obtain rfl := Option.some.inj hB
      simp)
